import Mathlib

/-!
# Verification of the Writely core: codec, word-count pipeline, auto-save
# scheduler and optimistic chapter-sync store

Shallow embedding of the repository's core logic:

* `src/lib/encryption.ts` (`encryptContent`, `decryptContent`, `isEncrypted`)
* `src/lib/contentUtils.ts` / `src/models/Chapter.ts`
  (`ContentUtils.extractTextFromTiptap`, `ContentUtils.countWords`,
  the `ChapterSchema.pre('save')` hook)
* `src/app/api/novels/[id]/chapters/route.ts` (POST: chapter creation)
* `src/app/api/novels/[id]/chapters/[chapterId]/route.ts` (PATCH: saves)
* `src/hooks/useChapterSync.ts` (`useEditorAutoSave`: `scheduleSave`/`flushSave`)
* `src/hooks/useEditor.ts` (auto-save reconciliation, `removeChapter`,
  `toggleStatus`, `loadChapter`)

JavaScript strings are modelled as `List Char`.  The JSON built-ins
(`JSON.stringify`/`JSON.parse`) and the AES-256-GCM primitive used by the
codec are external to the repository; the JSON built-ins are modelled by an
executable canonical serializer and parser over a `JsValue` type (integers
for numbers, `\uXXXX` escapes for control characters, whitespace only at the
top level — the canonical forms the serializer itself produces), and the
cipher by a `GcmCipher` record whose correctness properties appear as
explicit hypotheses of the theorems that need them.
-/

namespace Writely

set_option maxRecDepth 16000

/-- JavaScript strings, modelled as lists of characters. -/
abbrev Str := List Char

/-! ## Characters: decimal digits, hex digits, whitespace -/

/-- The decimal digit character for `d` (meaningful for `d < 10`). -/
def decDigitChar (d : Nat) : Char := Char.ofNat (48 + d)

/-- The lowercase hex digit character for `d` (meaningful for `d < 16`),
as produced by Node's `'hex'` encoding. -/
def hexDigitChar (d : Nat) : Char :=
  if d < 10 then Char.ofNat (48 + d) else Char.ofNat (87 + d)

/-- Value of a hex digit character, case insensitive (the `/^[0-9a-f]+$/i`
character class, and `Buffer.from(·, 'hex')` digit decoding). -/
def hexCharVal (c : Char) : Option (Fin 16) :=
  if h : 48 ≤ c.toNat ∧ c.toNat ≤ 57 then some ⟨c.toNat - 48, by omega⟩
  else if h : 97 ≤ c.toNat ∧ c.toNat ≤ 102 then some ⟨c.toNat - 87, by omega⟩
  else if h : 65 ≤ c.toNat ∧ c.toNat ≤ 70 then some ⟨c.toNat - 55, by omega⟩
  else none

/-- The characters matched by JavaScript's `/\s/` that can occur in chapter
text (ASCII fragment; the claims only exercise these). -/
def isJsWs (c : Char) : Bool :=
  c = ' ' || c = '\t' || c = '\n' || c = '\r' || c = Char.ofNat 11 || c = Char.ofNat 12

/-! ## Decimal notation for naturals and integers

Fuel-structural so that concrete values reduce by `rfl`/`decide`; fuel `n`
always suffices for input `n`. -/

/-- Digits of `n`, most significant first, prepended to `acc`.  The first
argument is fuel; any fuel `≥ n` (with `n ≥ 1`) yields the digits of `n`. -/
def natDigitRun : Nat → Nat → List Char → List Char
  | 0, _, acc => acc
  | _ + 1, 0, acc => acc
  | fuel + 1, n, acc => natDigitRun fuel (n / 10) (decDigitChar (n % 10) :: acc)

/-- Decimal digit string of a natural number. -/
def natToChars (n : Nat) : Str :=
  if n = 0 then ['0'] else natDigitRun n n []

/-- Decimal notation of an integer, as `JSON.stringify` prints it. -/
def intToChars : Int → Str
  | Int.ofNat n => natToChars n
  | Int.negSucc n => '-' :: natToChars (n + 1)

/-- Numeric value of a digit run (the parser's accumulator). -/
def digitRunVal (ds : Str) : Nat :=
  ds.foldl (fun a c => 10 * a + (c.toNat - 48)) 0

/-! ## JSON values and the built-in codec

`JSON.stringify` / `JSON.parse` are JavaScript built-ins, external to the
repository.  They are modelled over `JsValue` with numbers restricted to
integers (the only numbers occurring in document trees), canonical
serialization without whitespace (what `JSON.stringify` emits), and a parser
that accepts exactly that canonical grammar plus surrounding whitespace. -/

/-- A JSON value.  Objects keep their fields in insertion order, as
JavaScript objects do. -/
inductive JsValue where
  | vNull
  | vBool (b : Bool)
  | vNum (n : Int)
  | vStr (s : Str)
  | vArr (elems : List JsValue)
  | vObj (fields : List (Str × JsValue))

/-- JSON escape of one character: `"` and `\` get a backslash, control
characters become `\u00XX`, everything else is itself. -/
def escapeChar (c : Char) : Str :=
  if c = '"' then ['\\', '"']
  else if c = '\\' then ['\\', '\\']
  else if c.toNat < 32 then
    ['\\', 'u', '0', '0', hexDigitChar (c.toNat / 16), hexDigitChar (c.toNat % 16)]
  else [c]

/-- JSON escape of a string body. -/
def escapeStr (s : Str) : Str := s.flatMap escapeChar

mutual

/-- Canonical serialization, as `JSON.stringify` prints a value. -/
def jsonStringify : JsValue → Str
  | .vNull => ['n', 'u', 'l', 'l']
  | .vBool true => ['t', 'r', 'u', 'e']
  | .vBool false => ['f', 'a', 'l', 's', 'e']
  | .vNum n => intToChars n
  | .vStr s => '"' :: (escapeStr s ++ ['"'])
  | .vArr es => '[' :: (stringifyElems es ++ [']'])
  | .vObj fs => '{' :: (stringifyMembers fs ++ ['}'])
termination_by structural v => v

/-- Comma-separated serializations of array elements. -/
def stringifyElems : List JsValue → Str
  | [] => []
  | v :: vs => jsonStringify v ++ stringifyElemsTail vs
termination_by structural l => l

/-- The `, elem` continuation of an element list. -/
def stringifyElemsTail : List JsValue → Str
  | [] => []
  | v :: vs => ',' :: (jsonStringify v ++ stringifyElemsTail vs)
termination_by structural l => l

/-- Comma-separated serializations of object members
(a member prints as `"key":value`). -/
def stringifyMembers : List (Str × JsValue) → Str
  | [] => []
  | (k, v) :: fs => '"' :: (escapeStr k ++ '"' :: ':' :: jsonStringify v) ++ stringifyMembersTail fs
termination_by structural l => l

/-- The `, member` continuation of a member list. -/
def stringifyMembersTail : List (Str × JsValue) → Str
  | [] => []
  | (k, v) :: fs => ',' :: ('"' :: (escapeStr k ++ '"' :: ':' :: jsonStringify v) ++ stringifyMembersTail fs)
termination_by structural l => l

end

/-- One `"key":value` object member. -/
def stringifyMember (k : Str) (v : JsValue) : Str :=
  '"' :: (escapeStr k ++ '"' :: ':' :: jsonStringify v)

/-- Single-character escapes accepted after a backslash. -/
def escCharVal : Char → Option Char
  | 'n' => some '\n'
  | 't' => some '\t'
  | 'r' => some '\r'
  | 'b' => some (Char.ofNat 8)
  | 'f' => some (Char.ofNat 12)
  | '"' => some '"'
  | '\\' => some '\\'
  | '/' => some '/'
  | _ => none

/-- Parses a string body after the opening quote; returns the unescaped
content and the input after the closing quote. -/
def parseStringBody : Str → Option (Str × Str)
  | [] => none
  | c :: rest =>
    if c = '"' then some ([], rest)
    else if c = '\\' then
      match rest with
      | 'u' :: a :: b :: c2 :: d :: rest2 =>
        match hexCharVal a, hexCharVal b, hexCharVal c2, hexCharVal d with
        | some va, some vb, some vc, some vd =>
          match parseStringBody rest2 with
          | some (s, r) =>
            some (Char.ofNat (((va.val * 16 + vb.val) * 16 + vc.val) * 16 + vd.val) :: s, r)
          | none => none
        | _, _, _, _ => none
      | e :: rest2 =>
        match escCharVal e with
        | some ce =>
          match parseStringBody rest2 with
          | some (s, r) => some (ce :: s, r)
          | none => none
        | none => none
      | [] => none
    else
      match parseStringBody rest with
      | some (s, r) => some (c :: s, r)
      | none => none

/-- Parses a nonempty run of decimal digits into its value. -/
def parseDigitRun (s : Str) : Option (Nat × Str) :=
  let ds := s.takeWhile Char.isDigit
  if ds.isEmpty then none else some (digitRunVal ds, s.dropWhile Char.isDigit)

/-- One dispatch step of the value parser; the continuations `pv`, `pe`,
`pm`, `pms` parse a value, the rest of an element list, one member, and the
rest of a member list. -/
def parseValStep (pv : Str → Option (JsValue × Str))
    (pe : Str → Option (List JsValue × Str))
    (pm : Str → Option ((Str × JsValue) × Str))
    (pms : Str → Option (List (Str × JsValue) × Str)) : Str → Option (JsValue × Str)
  | [] => none
  | c :: r =>
    if c = 'n' then
      match r with
      | 'u' :: 'l' :: 'l' :: r1 => some (.vNull, r1)
      | _ => none
    else if c = 't' then
      match r with
      | 'r' :: 'u' :: 'e' :: r1 => some (.vBool true, r1)
      | _ => none
    else if c = 'f' then
      match r with
      | 'a' :: 'l' :: 's' :: 'e' :: r1 => some (.vBool false, r1)
      | _ => none
    else if c = '"' then
      match parseStringBody r with
      | some (s, r1) => some (.vStr s, r1)
      | none => none
    else if c = '-' then
      match parseDigitRun r with
      | some (n, r1) => some (.vNum (-(n : Int)), r1)
      | none => none
    else if c = '[' then
      match r with
      | [] => none
      | c1 :: r1 =>
        if c1 = ']' then some (.vArr [], r1)
        else
          match pv (c1 :: r1) with
          | some (v, r2) =>
            match pe r2 with
            | some (vs, r3) => some (.vArr (v :: vs), r3)
            | none => none
          | none => none
    else if c = '{' then
      match r with
      | [] => none
      | c1 :: r1 =>
        if c1 = '}' then some (.vObj [], r1)
        else
          match pm (c1 :: r1) with
          | some (kv, r2) =>
            match pms r2 with
            | some (kvs, r3) => some (.vObj (kv :: kvs), r3)
            | none => none
          | none => none
    else if c.isDigit then
      match parseDigitRun (c :: r) with
      | some (n, r1) => some (.vNum (n : Int), r1)
      | none => none
    else none

/-- One step after an array element: `]` closes, `,` continues. -/
def parseElemsStep (pv : Str → Option (JsValue × Str))
    (pe : Str → Option (List JsValue × Str)) : Str → Option (List JsValue × Str)
  | [] => none
  | c :: r =>
    if c = ']' then some ([], r)
    else if c = ',' then
      match pv r with
      | some (v, r1) =>
        match pe r1 with
        | some (vs, r2) => some (v :: vs, r2)
        | none => none
      | none => none
    else none

/-- One step parsing a `"key":value` object member. -/
def parseMemberStep (pv : Str → Option (JsValue × Str)) :
    Str → Option ((Str × JsValue) × Str)
  | [] => none
  | c :: r =>
    if c = '"' then
      match parseStringBody r with
      | some (k, r1) =>
        match r1 with
        | ':' :: r2 =>
          match pv r2 with
          | some (v, r3) => some ((k, v), r3)
          | none => none
        | _ => none
      | none => none
    else none

/-- One step after an object member: `}` closes, `,` continues. -/
def parseMembersStep (pm : Str → Option ((Str × JsValue) × Str))
    (pms : Str → Option (List (Str × JsValue) × Str)) :
    Str → Option (List (Str × JsValue) × Str)
  | [] => none
  | c :: r =>
    if c = '}' then some ([], r)
    else if c = ',' then
      match pm r with
      | some (kv, r1) =>
        match pms r1 with
        | some (kvs, r2) => some (kv :: kvs, r2)
        | none => none
      | none => none
    else none

mutual

/-- Parses one JSON value from the head of the input (first argument is
fuel; `length + 1` always suffices). -/
def parseJsonValue : Nat → Str → Option (JsValue × Str)
  | 0, _ => none
  | fuel + 1, input =>
    parseValStep (parseJsonValue fuel) (parseMoreElems fuel) (parseOneMember fuel)
      (parseMoreMembers fuel) input

/-- After one array element: `]` closes, `,` continues with another element. -/
def parseMoreElems : Nat → Str → Option (List JsValue × Str)
  | 0, _ => none
  | fuel + 1, input => parseElemsStep (parseJsonValue fuel) (parseMoreElems fuel) input

/-- Parses one `"key":value` object member. -/
def parseOneMember : Nat → Str → Option ((Str × JsValue) × Str)
  | 0, _ => none
  | fuel + 1, input => parseMemberStep (parseJsonValue fuel) input

/-- After one object member: `}` closes, `,` continues with another member. -/
def parseMoreMembers : Nat → Str → Option (List (Str × JsValue) × Str)
  | 0, _ => none
  | fuel + 1, input => parseMembersStep (parseOneMember fuel) (parseMoreMembers fuel) input

end

/-- The whitespace `JSON.parse` skips around the document. -/
def isJsonWs (c : Char) : Bool :=
  c = ' ' || c = '\t' || c = '\n' || c = '\r'

/-- `JSON.parse`, returning `none` where the built-in throws.  Accepts the
canonical grammar `jsonStringify` produces, plus surrounding whitespace. -/
def jsonParse (s : Str) : Option JsValue :=
  let t := s.dropWhile isJsonWs
  match parseJsonValue (t.length + 1) t with
  | some (v, rest) => if rest.dropWhile isJsonWs = [] then some v else none
  | none => none

/-- The input after a serialized fragment, inside the serializer's own
output: empty, or headed by one of the closing delimiters.  None of these
can extend a digit run, so numbers parse back exactly. -/
def goodTail : Str → Prop
  | [] => True
  | c :: _ => c = ',' ∨ c = ']' ∨ c = '}'

/-- The head cannot extend a digit run. -/
def headNotDigit : Str → Prop
  | [] => True
  | c :: _ => c.isDigit = false

/-! ## Bytes, hex encoding, and the split on `:`  -/

/-- A byte. -/
abbrev Byte := Fin 256

/-- Node's `'hex'` encoding of a byte buffer (lowercase, two digits per
byte), as `Buffer.prototype.toString('hex')` produces. -/
def hexEncode (bs : List Byte) : Str :=
  bs.flatMap (fun b => [hexDigitChar (b.val / 16), hexDigitChar (b.val % 16)])

/-- Node's `Buffer.from(·, 'hex')`: decodes pairs of hex digits, stopping at
the first invalid pair or odd leftover (Node truncates rather than throws). -/
def hexDecode : Str → List Byte
  | c1 :: c2 :: rest =>
    match hexCharVal c1, hexCharVal c2 with
    | some h, some l =>
      ⟨16 * h.val + l.val, by have := h.isLt; have := l.isLt; omega⟩ :: hexDecode rest
    | _, _ => []
  | _ => []

/-- One character of the `/^[0-9a-f]+$/i` class used by `isEncrypted`. -/
def isHexDigitChar (c : Char) : Bool :=
  (48 ≤ c.toNat && c.toNat ≤ 57) || (97 ≤ c.toNat && c.toNat ≤ 102)
    || (65 ≤ c.toNat && c.toNat ≤ 70)

/-- JavaScript `String.prototype.split` with a one-character separator:
groups between separators, empty groups preserved. -/
def splitOnChar (sep : Char) : Str → List Str
  | [] => [[]]
  | c :: rest =>
    match splitOnChar sep rest with
    | [] => [[]]
    | grp :: groups => if c = sep then [] :: grp :: groups else (c :: grp) :: groups

/-! ## The content encryption codec (src/lib/encryption.ts)

`encryptContent`, `decryptContent` and `isEncrypted`, with the AES-256-GCM
primitive (Node `crypto`) abstracted as a `GcmCipher`: encryption maps key,
IV and plaintext to ciphertext and auth tag, decryption returns `none` on
authentication failure.  UTF-8 conversion of the plaintext is folded into
the primitive. -/

structure GcmCipher where
  enc : List Byte → List Byte → Str → List Byte × List Byte
  dec : List Byte → List Byte → List Byte → List Byte → Option Str

/-- The plaintext actually encrypted: strings as they are, everything else
`JSON.stringify`-serialized (`typeof content === 'string' ? content :
JSON.stringify(content)`). -/
def encPayload (content : JsValue) : Str :=
  match content with
  | .vStr s => s
  | v => jsonStringify v

/-- `encryptContent`: encrypt the payload under a fresh IV and join
`iv:authTag:encryptedData`, all hex-encoded. -/
def encryptContent (c : GcmCipher) (key iv : List Byte) (content : JsValue) : Str :=
  let encrypted := c.enc key iv (encPayload content)
  hexEncode iv ++ ':' :: (hexEncode encrypted.2 ++ ':' :: hexEncode encrypted.1)

/-- The errors `decryptContent` throws. -/
inductive DecryptError where
  | malformed
  | authFailure

/-- `decryptContent`: split on `:`, require exactly 3 parts, decrypt, then
`JSON.parse` the result and fall back to the raw string if parsing fails. -/
def decryptContent (c : GcmCipher) (key : List Byte) (encryptedString : Str) :
    Except DecryptError JsValue :=
  match splitOnChar ':' encryptedString with
  | [ivHex, authTagHex, encryptedData] =>
    match c.dec key (hexDecode ivHex) (hexDecode authTagHex) (hexDecode encryptedData) with
    | none => .error .authFailure
    | some decrypted =>
      .ok (match jsonParse decrypted with
           | some v => v
           | none => .vStr decrypted)
  | _ => .error .malformed

/-- `isEncrypted`: a string that splits into exactly 3 parts, each matching
`/^[0-9a-f]+$/i` (so each part must be nonempty). -/
def isEncrypted (content : JsValue) : Bool :=
  match content with
  | .vStr s =>
    let parts := splitOnChar ':' s
    parts.length == 3 && parts.all (fun p => !p.isEmpty && p.all isHexDigitChar)
  | _ => false

/-! ## A concrete cipher for closed evaluations

Instantiates the abstract AES-256-GCM primitive in counterexamples and
witnesses: each plaintext character becomes four little-endian base-256
bytes, the tag is a constant 16-byte block.  Like GCM it is
length-preserving up to the per-character rate, so the empty plaintext
yields an empty ciphertext. -/

def charLeBytes (ch : Char) : List Byte :=
  [⟨ch.toNat % 256, by omega⟩, ⟨ch.toNat / 256 % 256, by omega⟩,
   ⟨ch.toNat / 65536 % 256, by omega⟩, ⟨ch.toNat / 16777216 % 256, by omega⟩]

def bytesToChars : List Byte → Str
  | b0 :: b1 :: b2 :: b3 :: rest =>
    Char.ofNat (b0.val + 256 * b1.val + 65536 * b2.val + 16777216 * b3.val) :: bytesToChars rest
  | _ => []

def testCipher : GcmCipher where
  enc := fun _ _ pt => (pt.flatMap charLeBytes, List.replicate 16 (171 : Fin 256))
  dec := fun _ _ _ ct => some (bytesToChars ct)

/-- A well-formed 32-byte key and 16-byte IV for closed evaluations. -/
def testKey : List Byte := List.replicate 32 (7 : Fin 256)

def testIv : List Byte := List.replicate 16 (1 : Fin 256)

/-! ## ContentUtils (src/lib/contentUtils.ts and src/models/Chapter.ts)

`extractTextFromTiptap` walks an arbitrary JSON value the way the
duck-typed JavaScript does: strings return themselves, arrays map-and-join
with one space, objects contribute `` ` ${node.text}` `` when `node.text`
is truthy and `` ` ${extract(node.content)}` `` when `node.content` is
truthy, then trim.  `countWords` dispatches on the content type and counts
maximal non-whitespace runs (`trim().split(/\s+/).filter(Boolean).length`). -/

/-- JavaScript truthiness on JSON values. -/
def jsTruthy : JsValue → Bool
  | .vNull => false
  | .vBool b => b
  | .vNum n => n != 0
  | .vStr s => !s.isEmpty
  | .vArr _ => true
  | .vObj _ => true

mutual

/-- JavaScript string conversion (template-literal semantics): arrays join
their elements with `,`, objects print `[object Object]`. -/
def jsToString : JsValue → Str
  | .vNull => "null".toList
  | .vBool true => "true".toList
  | .vBool false => "false".toList
  | .vNum n => intToChars n
  | .vStr s => s
  | .vArr xs => jsToStringList xs
  | .vObj _ => "[object Object]".toList
termination_by structural v => v

/-- Comma-joined conversions of array elements. -/
def jsToStringList : List JsValue → Str
  | [] => []
  | [v] => jsToString v
  | v :: vs => jsToString v ++ ',' :: jsToStringList vs
termination_by structural l => l

end

/-- `Array.prototype.join(' ')` over already-extracted pieces. -/
def joinSpace : List Str → Str
  | [] => []
  | [s] => s
  | s :: ss => s ++ ' ' :: joinSpace ss

/-- `String.prototype.trim`: strip whitespace from both ends. -/
def trimChars (s : Str) : Str :=
  ((s.dropWhile isJsWs).reverse.dropWhile isJsWs).reverse

mutual

/-- `ContentUtils.extractTextFromTiptap`: recursively extracts plain text
from a Tiptap JSON structure (`!node → ''`; string nodes return themselves;
arrays map-and-join with a space; object nodes append `` ` ${node.text}` ``
and `` ` ${extract(node.content)}` `` for truthy fields, then trim; any
other value yields `''`). -/
def extractTextFromTiptap : JsValue → Str
  | .vNull => []
  | .vBool _ => []
  | .vNum _ => []
  | .vStr s => s
  | .vArr xs => joinSpace (extractTextList xs)
  | .vObj fields => trimChars (extractTextField fields ++ extractContentField fields)
termination_by structural v => v

/-- The extractions of the elements of a node array. -/
def extractTextList : List JsValue → List Str
  | [] => []
  | v :: vs => extractTextFromTiptap v :: extractTextList vs
termination_by structural l => l

/-- The `` ` ${node.text}` `` contribution: first `text` field, when truthy. -/
def extractTextField : List (Str × JsValue) → Str
  | [] => []
  | (k, v) :: fs =>
    if k = "text".toList then (if jsTruthy v then ' ' :: jsToString v else [])
    else extractTextField fs
termination_by structural l => l

/-- The `` ` ${extract(node.content)}` `` contribution: first `content`
field, extracted recursively, when truthy. -/
def extractContentField : List (Str × JsValue) → Str
  | [] => []
  | (k, v) :: fs =>
    if k = "content".toList then (if jsTruthy v then ' ' :: extractTextFromTiptap v else [])
    else extractContentField fs
termination_by structural l => l

end

/-- The replacement `content.replace(/<[^>]*>/g, ' ')` (first argument is
fuel; the input length always suffices). -/
def stripTagsFuel : Nat → Str → Str
  | 0, s => s
  | _ + 1, [] => []
  | fuel + 1, c :: rest =>
    if c = '<' then
      match rest.dropWhile (fun d => d ≠ '>') with
      | '>' :: rest2 => ' ' :: stripTagsFuel fuel rest2
      | _ => c :: stripTagsFuel fuel rest
    else c :: stripTagsFuel fuel rest

/-- Basic HTML tag stripping, as the `html` branch of `countWords` does. -/
def stripHtmlTags (s : Str) : Str := stripTagsFuel s.length s

/-- The maximal non-whitespace runs of a string: the combined effect of
`split(/\s+/)` followed by `filter(Boolean)` (first argument is fuel; the
input length always suffices). -/
def wsTokensFuel : Nat → Str → List Str
  | 0, _ => []
  | _ + 1, [] => []
  | fuel + 1, c :: rest =>
    if isJsWs c then wsTokensFuel fuel rest
    else (c :: rest.takeWhile (fun d => !isJsWs d))
      :: wsTokensFuel fuel (rest.dropWhile (fun d => !isJsWs d))

/-- The maximal non-whitespace runs of a string. -/
def wsTokens (s : Str) : List Str := wsTokensFuel s.length s

/-- `ContentUtils.countWords`: dispatch on the content type, then
`trim().split(/\s+/).filter(Boolean).length`. -/
def countWords (content : JsValue) (type : Str) : Nat :=
  let plainText : Str :=
    if type = "tiptap".toList then extractTextFromTiptap content
    else if type = "html".toList then
      match content with
      | .vStr s => stripHtmlTags s
      | _ => []
    else if type = "markdown".toList then
      match content with
      | .vStr s => s
      | _ => []
    else
      match content with
      | .vStr s => s
      | _ => []
  (wsTokens (trimChars plainText)).length

/-! ## API helpers (src/lib/api-helpers.ts) -/

/-- The replacement of every `/<[^>]*>/g` match by `repl` (first argument
is fuel; the input length always suffices).  An unclosed `<` matches
nothing and stays. -/
def replaceTagsFuel (repl : Str) : Nat → Str → Str
  | 0, s => s
  | _ + 1, [] => []
  | fuel + 1, c :: rest =>
    if c = '<' then
      match rest.dropWhile (fun d => d ≠ '>') with
      | '>' :: rest2 => repl ++ replaceTagsFuel repl fuel rest2
      | _ => c :: replaceTagsFuel repl fuel rest
    else c :: replaceTagsFuel repl fuel rest

/-- `sanitizeString`: strip HTML tags (replace by nothing), then trim. -/
def sanitizeString (input : Str) : Str :=
  trimChars (replaceTagsFuel [] input.length input)

/-- `isValidLength`: the length is within `[min, max]`. -/
def isValidLength (input : Str) (min max : Nat) : Bool :=
  min ≤ input.length && input.length ≤ max

/-! ## The Chapter document and its save pipeline
(src/models/Chapter.ts, src/app/api/novels/[id]/chapters/... routes)

The routes' session, ownership and connection steps call external
collaborators and are orthogonal to the claims; the models cover the
document mutation they perform on an owned chapter. -/

inductive ChapterStatus where
  | draft
  | published
deriving DecidableEq

/-- A stored chapter document (the fields the claims are about). -/
structure DbChapter where
  title : Str
  content : JsValue
  contentType : Str
  order : Nat
  status : ChapterStatus
  wordCount : Nat

/-- `UpdateChapterInput` (src/types/chapter.ts): the whitelisted partial
update; an absent field is `none`. -/
structure UpdateChapterInput where
  title : Option Str := none
  content : Option JsValue := none
  order : Option Int := none
  status : Option ChapterStatus := none

/-- The `ChapterSchema.pre('save')` hook: skip when neither `content` nor
`contentType` changed and the document is not new, otherwise recompute
`wordCount` from the **stored** content (`this.content`) under
`this.contentType || 'tiptap'`.  (`countWords` is total, so the hook's
`catch`-to-zero branch is unreachable in the model.) -/
def chapterPreSave (contentModified contentTypeModified isNew : Bool)
    (ch : DbChapter) : DbChapter :=
  if !contentModified && !contentTypeModified && !isNew then ch
  else
    let effType := if ch.contentType.isEmpty then "tiptap".toList else ch.contentType
    { ch with wordCount := countWords ch.content effType }

/-- The PATCH route body (src/app/api/novels/[id]/chapters/[chapterId]/route.ts):
whitelist title (sanitized, length-checked), content (word count from the
plaintext, then stored encrypted), order (non-negative); then `save()`
runs the pre-save hook on the document as stored. -/
def patchChapter (c : GcmCipher) (key iv : List Byte) (body : UpdateChapterInput)
    (chapter : DbChapter) : Except Str DbChapter := do
  let chapter ←
    match body.title with
    | none => pure chapter
    | some t =>
      let title := sanitizeString t
      if isValidLength title 1 200 then pure { chapter with title := title }
      else throw "Title must be between 1 and 200 characters".toList
  let step : DbChapter × Bool :=
    match body.content with
    | none => (chapter, false)
    | some content =>
      ({ chapter with
          wordCount := countWords content
            (if chapter.contentType.isEmpty then "tiptap".toList else chapter.contentType),
          content := .vStr (encryptContent c key iv content) }, true)
  let chapter := step.1
  let contentModified := step.2
  let chapter ←
    match body.order with
    | none => pure chapter
    | some o =>
      if o < 0 then throw "Order must be a non-negative number".toList
      else pure { chapter with order := o.toNat }
  pure (chapterPreSave contentModified false false chapter)

/-- The POST route (src/app/api/novels/[id]/chapters/route.ts): optional
title (default `New Chapter`, truthy body title sanitized and
length-checked), `order := countDocuments` over the novel's chapters, and
`Chapter.create` runs the pre-save hook on the new document (schema
defaults: empty string content, `tiptap`, `draft`, word count 0). -/
def createChapter (existingChapters : List DbChapter) (bodyTitle : Option Str) :
    Except Str DbChapter := do
  let title ←
    match bodyTitle with
    | some t =>
      if !t.isEmpty then
        let title := sanitizeString t
        if isValidLength title 1 200 then pure title
        else throw "Title must be between 1 and 200 characters".toList
      else pure "New Chapter".toList
    | none => pure "New Chapter".toList
  let nextOrder := existingChapters.length
  pure (chapterPreSave false false true
    { title := title, content := .vStr [], contentType := "tiptap".toList,
      order := nextOrder, status := .draft, wordCount := 0 })

/-- Restated from the spec's words, for comparison with the code: "`order`
assignment for new chapters is 1 + current maximum order among siblings". -/
def claimedNewOrder (existingChapters : List DbChapter) : Nat :=
  (existingChapters.map (·.order)).foldr max 0 + 1

/-! ## The auto-save scheduler (src/hooks/useChapterSync.ts, `useEditorAutoSave`)

`scheduleSave` merges the new partial edit into the pending buffer with a
spread (`{ ...pendingDataRef.current, ...data }`) and (re)arms the timer;
the timer callback and `flushSave` both null the buffer before handing it
to the sink.  The model is a step function over the ref state; an event
trace interleaves `scheduleSave` calls, timer firings and flushes, and the
step returns the edits handed to `onAutoSave`.  Each step also records, as
ghost data, which schedule events (by trace index) were merged into the
buffer, so "no buffered edit is emitted twice" is a statement about the
emitted index sets. -/

/-- The spread `{ ...pending, ...data }`: field-level overwrite, the later
edit winning per present field; never a deep merge. -/
def mergeEdit (pending data : UpdateChapterInput) : UpdateChapterInput :=
  { title := match data.title with
      | some t => some t
      | none => pending.title,
    content := match data.content with
      | some c => some c
      | none => pending.content,
    order := match data.order with
      | some o => some o
      | none => pending.order,
    status := match data.status with
      | some st => some st
      | none => pending.status }

/-- The events the scheduler reacts to. -/
inductive SchedEvent where
  | schedule (e : UpdateChapterInput)
  | timerFire
  | flush

/-- The scheduler's ref state: `pendingDataRef` (with the ghost list of
contributing schedule-event indices) and whether `timerRef` holds an armed
timer. -/
structure SchedState where
  pendingData : Option UpdateChapterInput
  pendingSrc : List Nat
  timerArmed : Bool

def initSchedState : SchedState := ⟨none, [], false⟩

/-- One scheduler step at trace index `i`: returns the new state and the
edits handed to the sink (each with its ghost source indices). -/
def schedStep (i : Nat) (s : SchedState) :
    SchedEvent → SchedState × List (UpdateChapterInput × List Nat)
  | .schedule e =>
    ({ pendingData := some (match s.pendingData with
        | some p => mergeEdit p e
        | none => e),
       pendingSrc := s.pendingSrc ++ [i],
       timerArmed := true }, [])
  | .timerFire =>
    if s.timerArmed then
      match s.pendingData with
      | some d => (⟨none, [], false⟩, [(d, s.pendingSrc)])
      | none => (⟨none, [], false⟩, [])
    else (s, [])
  | .flush =>
    match s.pendingData with
    | some d => (⟨none, [], false⟩, [(d, s.pendingSrc)])
    | none => ({ s with timerArmed := false }, [])

/-- Run a trace of scheduler events, collecting every emitted save. -/
def schedRun (i : Nat) (s : SchedState) :
    List SchedEvent → SchedState × List (UpdateChapterInput × List Nat)
  | [] => (s, [])
  | ev :: evs =>
    let step := schedStep i s ev
    let rest := schedRun (i + 1) step.1 evs
    (rest.1, step.2 ++ rest.2)

/-! ## The optimistic chapter-sync store (src/hooks/useEditor.ts)

The hook's state plus the chapter cache ref, with each state-updating
callback as a pure function.  Persistence-gateway calls are suspension
points; the functions below model the synchronous state transitions on
either side of them: the optimistic update, the success reconciliation and
the failure revert. -/

/-- A lightweight list-projection entry (`ChapterSummary`). -/
structure ChapterSummary where
  id : Str
  title : Str
  order : Nat
  status : ChapterStatus
  wordCount : Nat
  updatedAt : Nat

/-- A full chapter (`ChapterFull`), as held by the cache and the active
chapter. -/
structure ChapterFull where
  id : Str
  title : Str
  content : JsValue
  order : Nat
  status : ChapterStatus
  wordCount : Nat
  updatedAt : Nat

inductive SaveStatus where
  | idle
  | saving
  | saved
  | error

/-- The hook's state (`EditorState`) together with the `chapterCache` ref;
the novel is abstracted to its `stats.currentWordCount` (present iff the
novel is loaded). -/
structure EditorState where
  novelWordCount : Option Nat
  chapters : List ChapterSummary
  activeChapter : Option ChapterFull
  activeChapterId : Option Str
  saveStatus : SaveStatus
  cache : List (Str × ChapterFull)

/-- `Map.prototype.set`: upsert preserving insertion order. -/
def mapSet : List (Str × ChapterFull) → Str → ChapterFull → List (Str × ChapterFull)
  | [], k, v => [(k, v)]
  | (k', v') :: rest, k, v =>
    if k' = k then (k, v) :: rest else (k', v') :: mapSet rest k v

/-- `Map.prototype.get`. -/
def mapGet : List (Str × ChapterFull) → Str → Option ChapterFull
  | [], _ => none
  | (k', v') :: rest, k => if k' = k then some v' else mapGet rest k

/-- `Map.prototype.delete`. -/
def mapDelete (cache : List (Str × ChapterFull)) (k : Str) : List (Str × ChapterFull) :=
  cache.filter (fun kv => kv.1 ≠ k)

/-- The success reconciliation of `autoSave` (useEditor.ts lines 150-183):
cache the saved chapter under its own id, merge title/wordCount/updatedAt
into the matching list entry, resum the novel word count over the list —
and set `activeChapter := updated` unconditionally. -/
def autoSaveSuccess (updated : ChapterFull) (s : EditorState) : EditorState :=
  let cache := mapSet s.cache updated.id updated
  let chapters := s.chapters.map (fun ch =>
    if ch.id = updated.id then
      { ch with
          title := updated.title
          wordCount := updated.wordCount
          updatedAt := updated.updatedAt }
    else ch)
  { s with
    cache := cache,
    chapters := chapters,
    activeChapter := some updated,
    saveStatus := .saved,
    novelWordCount := s.novelWordCount.map (fun _ => (chapters.map (·.wordCount)).sum) }

/-- The failure branch of `autoSave`. -/
def autoSaveFailure (s : EditorState) : EditorState :=
  { s with saveStatus := .error }

/-- `loadChapter`: cache-first.  On a hit the cached chapter becomes active
with no network call; on a miss only the id and status are set
synchronously and a fetch goes out (the returned flag). -/
def loadChapter (chapterId : Str) (s : EditorState) : EditorState × Bool :=
  match mapGet s.cache chapterId with
  | some cached =>
    ({ s with
        activeChapter := some cached
        activeChapterId := some chapterId
        saveStatus := .idle }, false)
  | none =>
    ({ s with activeChapterId := some chapterId, saveStatus := .idle }, true)

/-- The optimistic part of `removeChapter` (useEditor.ts lines 225-242):
pick the next chapter as `remaining[0]`, drop the chapter from cache and
list, and when the deleted chapter was active, make the pick active and
load it cache-first.  Returns the state and whether a fetch was issued. -/
def removeChapter (chapterId : Str) (s : EditorState) : EditorState × Bool :=
  let wasActive := s.activeChapterId = some chapterId
  let remaining := s.chapters.filter (fun ch => ch.id ≠ chapterId)
  let nextId : Option Str :=
    if wasActive then remaining.head?.map (·.id) else none
  let s1 : EditorState :=
    { s with
      cache := mapDelete s.cache chapterId,
      chapters := s.chapters.filter (fun ch => ch.id ≠ chapterId),
      activeChapterId := if wasActive then nextId else s.activeChapterId,
      activeChapter := if wasActive then none else s.activeChapter }
  match nextId with
  | some nid => loadChapter nid s1
  | none => (s1, false)

/-- `toggleStatus` when the persistence call fails (useEditor.ts lines
256-297): the optimistic flip is applied to the list entry, the active
chapter and the cache entry; the catch-block revert restores the captured
pre-toggle status in the list entry and the active chapter — the cache is
left as the optimistic flip wrote it. -/
def toggleStatusFailed (chapterId : Str) (s : EditorState) : EditorState :=
  match s.chapters.find? (fun c => c.id = chapterId) with
  | none => s
  | some ch =>
    let newStatus := if ch.status = ChapterStatus.published then
      ChapterStatus.draft else ChapterStatus.published
    let s1 : EditorState :=
      { s with
        chapters := s.chapters.map (fun c =>
          if c.id = chapterId then { c with status := newStatus } else c),
        activeChapter := match s.activeChapter with
          | some ac => if ac.id = chapterId then some { ac with status := newStatus }
              else some ac
          | none => none }
    let s2 : EditorState :=
      match mapGet s1.cache chapterId with
      | some cached => { s1 with cache := mapSet s1.cache chapterId { cached with status := newStatus } }
      | none => s1
    { s2 with
      chapters := s2.chapters.map (fun c =>
        if c.id = chapterId then { c with status := ch.status } else c),
      activeChapter := match s2.activeChapter with
        | some ac => if ac.id = chapterId then some { ac with status := ch.status }
            else some ac
        | none => none }

/-- Restated from the spec's words, for comparison with the code: the
"next adjacent item (by current order)" after a deletion — in the
ascending-order chapter list, the entry immediately after the deleted
one. -/
def specNextAdjacentId (chapters : List ChapterSummary) (chapterId : Str) : Option Str :=
  match chapters with
  | [] => none
  | ch :: rest =>
    if ch.id = chapterId then rest.head?.map (·.id)
    else specNextAdjacentId rest chapterId

/-! ## Fixtures for closed evaluations -/

/-- The spec's example document tree, in the field names the code consumes
(the source reads `type`/`text`/`content`; the spec writes the same shape
as `kind`/`text`/`children`). -/
def specDocTree : JsValue :=
  .vObj [("type".toList, .vStr "doc".toList),
    ("content".toList, .vArr [
      .vObj [("type".toList, .vStr "paragraph".toList),
        ("content".toList, .vArr [.vObj [("type".toList, .vStr "text".toList),
          ("text".toList, .vStr "Hello".toList)]])],
      .vObj [("type".toList, .vStr "paragraph".toList),
        ("content".toList, .vArr [.vObj [("type".toList, .vStr "text".toList),
          ("text".toList, .vStr "world".toList)]])]])]

/-- A stored tiptap chapter with empty content. -/
def emptyChapter : DbChapter :=
  { title := "Chapter One".toList, content := .vStr [], contentType := "tiptap".toList,
    order := 0, status := .draft, wordCount := 0 }

/-- A sibling with order 0. -/
def chapterOrder0 : DbChapter := { emptyChapter with order := 0 }

/-- A sibling with order 2 (order 1 was deleted, leaving a gap). -/
def chapterOrder2 : DbChapter := { emptyChapter with order := 2 }

def chA : ChapterFull :=
  { id := "a".toList, title := "Chapter A".toList, content := .vStr "alpha".toList,
    order := 1, status := .draft, wordCount := 1, updatedAt := 10 }

def chAUpdated : ChapterFull :=
  { id := "a".toList, title := "Chapter A".toList, content := .vStr "alpha beta".toList,
    order := 1, status := .draft, wordCount := 2, updatedAt := 20 }

def chB : ChapterFull :=
  { id := "b".toList, title := "Chapter B".toList, content := .vStr "bravo".toList,
    order := 2, status := .draft, wordCount := 1, updatedAt := 10 }

def chC : ChapterFull :=
  { id := "c".toList, title := "Chapter C".toList, content := .vStr "charlie".toList,
    order := 3, status := .draft, wordCount := 1, updatedAt := 10 }

def sumA : ChapterSummary :=
  { id := "a".toList, title := "Chapter A".toList, order := 1, status := .draft,
    wordCount := 1, updatedAt := 10 }

def sumB : ChapterSummary :=
  { id := "b".toList, title := "Chapter B".toList, order := 2, status := .draft,
    wordCount := 1, updatedAt := 10 }

def sumC : ChapterSummary :=
  { id := "c".toList, title := "Chapter C".toList, order := 3, status := .draft,
    wordCount := 1, updatedAt := 10 }

/-- Editor state while a save of chapter `a` is in flight and the user has
switched to chapter `b`. -/
def inFlightState : EditorState :=
  { novelWordCount := some 2, chapters := [sumA, sumB], activeChapter := some chB,
    activeChapterId := some "b".toList, saveStatus := .saving,
    cache := [("a".toList, chA), ("b".toList, chB)] }

/-- Editor state with three ascending chapters, the middle one active. -/
def threeChapterState : EditorState :=
  { novelWordCount := some 3, chapters := [sumA, sumB, sumC], activeChapter := some chB,
    activeChapterId := some "b".toList, saveStatus := .idle,
    cache := [("a".toList, chA), ("b".toList, chB), ("c".toList, chC)] }

/-- Editor state with chapters `a`, `b`, chapter `a` active, only `b`
cached. -/
def twoChapterState : EditorState :=
  { novelWordCount := some 2, chapters := [sumA, sumB], activeChapter := some chA,
    activeChapterId := some "a".toList, saveStatus := .idle,
    cache := [("b".toList, chB)] }

/-- Editor state with a single draft chapter `a`, active and cached. -/
def draftChapterState : EditorState :=
  { novelWordCount := some 1, chapters := [sumA], activeChapter := some chA,
    activeChapterId := some "a".toList, saveStatus := .idle,
    cache := [("a".toList, chA)] }

/-! ## Theorems -/

theorem decDigitChar_toNat {d : Nat} (h : d < 10) : (decDigitChar d).toNat = 48 + d := by
  interval_cases d <;> decide

theorem decDigitChar_isDigit {d : Nat} (h : d < 10) : (decDigitChar d).isDigit = true := by
  interval_cases d <;> decide

theorem hexCharVal_hexDigitChar {d : Nat} (h : d < 16) :
    hexCharVal (hexDigitChar d) = some ⟨d, h⟩ := by
  interval_cases d <;> rfl

theorem natDigitRun_zero (fuel : Nat) (acc : List Char) : natDigitRun fuel 0 acc = acc := by
  cases fuel <;> rfl

theorem natDigitRun_append (fuel : Nat) :
    ∀ n acc, natDigitRun fuel n acc = natDigitRun fuel n [] ++ acc := by
  induction fuel with
  | zero => intro n acc; rfl
  | succ fuel ih =>
    intro n acc
    match n with
    | 0 => rfl
    | m + 1 =>
      show natDigitRun fuel ((m + 1) / 10) (decDigitChar ((m + 1) % 10) :: acc)
          = natDigitRun fuel ((m + 1) / 10) [decDigitChar ((m + 1) % 10)] ++ acc
      rw [ih ((m + 1) / 10) (decDigitChar ((m + 1) % 10) :: acc),
        ih ((m + 1) / 10) [decDigitChar ((m + 1) % 10)]]
      simp

theorem natDigitRun_fuel : ∀ fuel fuel' n, n ≤ fuel → n ≤ fuel' →
    natDigitRun fuel n [] = natDigitRun fuel' n [] := by
  intro fuel
  induction fuel using Nat.strong_induction_on with
  | _ fuel ih =>
    intro fuel' n h h'
    match n with
    | 0 => rw [natDigitRun_zero, natDigitRun_zero]
    | m + 1 =>
      obtain ⟨f, rfl⟩ : ∃ f, fuel = f + 1 := ⟨fuel - 1, by omega⟩
      obtain ⟨f', rfl⟩ : ∃ g, fuel' = g + 1 := ⟨fuel' - 1, by omega⟩
      show natDigitRun f ((m + 1) / 10) [decDigitChar ((m + 1) % 10)]
          = natDigitRun f' ((m + 1) / 10) [decDigitChar ((m + 1) % 10)]
      rw [natDigitRun_append f, natDigitRun_append f',
        ih f (by omega) f' ((m + 1) / 10) (by omega) (by omega)]

theorem natDigitRun_eq_of_le {fuel n : Nat} (h : n ≤ fuel) :
    natDigitRun fuel n [] = natDigitRun n n [] :=
  natDigitRun_fuel fuel n n h (Nat.le_refl n)

/-- Unfolding of the digit run in least-significant-digit-last form. -/
theorem natDigitRun_unfold {n : Nat} (hn : 0 < n) :
    natDigitRun n n []
      = (if n < 10 then [] else natDigitRun (n / 10) (n / 10) []) ++ [decDigitChar (n % 10)] := by
  match n, hn with
  | m + 1, _ =>
    show natDigitRun m ((m + 1) / 10) [decDigitChar ((m + 1) % 10)] = _
    rw [natDigitRun_append m]
    by_cases h : m + 1 < 10
    · have : (m + 1) / 10 = 0 := by omega
      rw [this, if_pos h]
      match m with
      | 0 => rfl
      | k + 1 => rfl
    · rw [if_neg h, natDigitRun_eq_of_le (by omega)]

theorem natDigitRun_ne_nil {n : Nat} (hn : 0 < n) : natDigitRun n n [] ≠ [] := by
  rw [natDigitRun_unfold hn]; simp

theorem natDigitRun_digits {n : Nat} : ∀ c ∈ natDigitRun n n [], c.isDigit = true := by
  induction n using Nat.strong_induction_on with
  | _ n ih =>
    intro c hc
    rcases Nat.eq_zero_or_pos n with h0 | hpos
    · subst h0; simp [natDigitRun] at hc
    rw [natDigitRun_unfold hpos, List.mem_append] at hc
    rcases hc with h | h
    · by_cases h10 : n < 10
      · simp [h10] at h
      · rw [if_neg h10] at h
        exact ih (n / 10) (by omega) c h
    · rw [List.mem_singleton] at h
      subst h
      exact decDigitChar_isDigit (Nat.mod_lt _ (by omega))

theorem digitRunVal_append_digit (ds : Str) (c : Char) :
    digitRunVal (ds ++ [c]) = 10 * digitRunVal ds + (c.toNat - 48) := by
  simp [digitRunVal]

theorem digitRunVal_natDigitRun {n : Nat} (hn : 0 < n) : digitRunVal (natDigitRun n n []) = n := by
  induction n using Nat.strong_induction_on with
  | _ n ih =>
    rw [natDigitRun_unfold hn, digitRunVal_append_digit,
      decDigitChar_toNat (Nat.mod_lt _ (by omega))]
    by_cases h10 : n < 10
    · rw [if_pos h10]
      show 10 * digitRunVal [] + (48 + n % 10 - 48) = n
      have : n % 10 = n := Nat.mod_eq_of_lt h10
      simp [digitRunVal, this]
    · rw [if_neg h10, ih (n / 10) (by omega) (by omega)]
      omega

theorem digitRunVal_natToChars (n : Nat) : digitRunVal (natToChars n) = n := by
  rcases Nat.eq_zero_or_pos n with h0 | hpos
  · subst h0; rfl
  · rw [natToChars, if_neg (by omega)]
    exact digitRunVal_natDigitRun hpos

theorem natToChars_ne_nil (n : Nat) : natToChars n ≠ [] := by
  rw [natToChars]
  split
  · simp
  · exact natDigitRun_ne_nil (by omega)

theorem natToChars_digits (n : Nat) : ∀ c ∈ natToChars n, c.isDigit = true := by
  rw [natToChars]
  split
  · intro c hc; rw [List.mem_singleton] at hc; subst hc; decide
  · exact natDigitRun_digits

/-! ### The parser inverts the canonical serializer -/

theorem stringifyMembers_cons (k : Str) (v : JsValue) (fs : List (Str × JsValue)) :
    stringifyMembers ((k, v) :: fs) = stringifyMember k v ++ stringifyMembersTail fs := rfl

theorem stringifyMembersTail_cons (k : Str) (v : JsValue) (fs : List (Str × JsValue)) :
    stringifyMembersTail ((k, v) :: fs) = ',' :: (stringifyMember k v ++ stringifyMembersTail fs) := rfl

theorem parseStringBody_escapeChar (c : Char) (X : Str) :
    parseStringBody (escapeChar c ++ X)
      = match parseStringBody X with
        | some (s, r) => some (c :: s, r)
        | none => none := by
  by_cases hq : c = '"'
  · subst hq; rfl
  by_cases hb : c = '\\'
  · subst hb; rfl
  by_cases hc : c.toNat < 32
  · have h32 : c.toNat / 16 < 16 := by omega
    have h16 : c.toNat % 16 < 16 := by omega
    have harg : escapeChar c ++ X
        = '\\' :: 'u' :: '0' :: '0' :: hexDigitChar (c.toNat / 16) :: hexDigitChar (c.toNat % 16) :: X := by
      simp [escapeChar, hq, hb, hc]
    rw [harg]
    show (match hexCharVal '0', hexCharVal '0', hexCharVal (hexDigitChar (c.toNat / 16)),
            hexCharVal (hexDigitChar (c.toNat % 16)) with
      | some va, some vb, some vc, some vd =>
        match parseStringBody X with
        | some (s, r) =>
          some (Char.ofNat (((va.val * 16 + vb.val) * 16 + vc.val) * 16 + vd.val) :: s, r)
        | none => none
      | _, _, _, _ => none) = _
    rw [hexCharVal_hexDigitChar h32, hexCharVal_hexDigitChar h16]
    show (match parseStringBody X with
      | some (s, r) =>
        some (Char.ofNat ((((0 : Fin 16).val * 16 + (0 : Fin 16).val) * 16 + c.toNat / 16) * 16
          + c.toNat % 16) :: s, r)
      | none => none) = _
    have hval : (((0 : Fin 16).val * 16 + (0 : Fin 16).val) * 16 + c.toNat / 16) * 16
        + c.toNat % 16 = c.toNat := by simp; omega
    rw [hval, Char.ofNat_toNat]
  · have harg : escapeChar c ++ X = c :: X := by simp [escapeChar, hq, hb, hc]
    rw [harg, parseStringBody.eq_def]
    simp only [if_neg hq, if_neg hb]

theorem parseStringBody_escapeStr (s : Str) :
    ∀ rest, parseStringBody (escapeStr s ++ '"' :: rest) = some (s, rest) := by
  induction s with
  | nil =>
    intro rest
    show parseStringBody (([] : Str).flatMap escapeChar ++ '"' :: rest) = _
    rw [List.flatMap_nil, List.nil_append, parseStringBody.eq_def]
    simp
  | cons c cs ih =>
    intro rest
    rw [show escapeStr (c :: cs) = escapeChar c ++ escapeStr cs from
        List.flatMap_cons c cs escapeChar,
      List.append_assoc, parseStringBody_escapeChar, ih rest]

theorem goodTail_headNotDigit : ∀ {rest : Str}, goodTail rest → headNotDigit rest := by
  intro rest h
  match rest with
  | [] => trivial
  | c :: t =>
    rcases h with h | h | h <;> (subst h; rfl)

theorem takeWhile_digitRun {ds : Str} (hds : ∀ c ∈ ds, c.isDigit = true)
    {rest : Str} (hrest : headNotDigit rest) :
    (ds ++ rest).takeWhile Char.isDigit = ds ∧ (ds ++ rest).dropWhile Char.isDigit = rest := by
  induction ds with
  | nil =>
    match rest with
    | [] => exact ⟨rfl, rfl⟩
    | c :: t =>
      have hc : c.isDigit = false := hrest
      constructor
      · simp [List.takeWhile_cons, hc]
      · simp [List.dropWhile_cons, hc]
  | cons c cs ih =>
    have hc : c.isDigit = true := hds c (by simp)
    obtain ⟨h1, h2⟩ := ih (fun x hx => hds x (by simp [hx]))
    constructor
    · simp [List.takeWhile_cons, hc, h1]
    · simp [List.dropWhile_cons, hc, h2]

theorem parseDigitRun_natToChars (n : Nat) {rest : Str} (hrest : headNotDigit rest) :
    parseDigitRun (natToChars n ++ rest) = some (n, rest) := by
  obtain ⟨h1, h2⟩ := takeWhile_digitRun (natToChars_digits n) hrest
  rw [parseDigitRun]
  simp only [h1, h2]
  rw [if_neg (by simp [List.isEmpty_iff, natToChars_ne_nil n]), digitRunVal_natToChars]

theorem natToChars_cons (n : Nat) : ∃ c t, natToChars n = c :: t ∧ c.isDigit = true := by
  match h : natToChars n with
  | [] => exact absurd h (natToChars_ne_nil n)
  | c :: t => exact ⟨c, t, rfl, natToChars_digits n c (h ▸ List.mem_cons_self c t)⟩

theorem digit_ne_starts {c : Char} (h : c.isDigit = true) :
    c ≠ 'n' ∧ c ≠ 't' ∧ c ≠ 'f' ∧ c ≠ '"' ∧ c ≠ '-' ∧ c ≠ '[' ∧ c ≠ '{' := by
  refine ⟨?_, ?_, ?_, ?_, ?_, ?_, ?_⟩ <;> (intro hx; subst hx; exact absurd h (by decide))

theorem digit_ne_delims {c : Char} (h : c.isDigit = true) :
    c ≠ ']' ∧ c ≠ '}' ∧ isJsonWs c = false := by
  refine ⟨?_, ?_, ?_⟩
  · intro hx; subst hx; exact absurd h (by decide)
  · intro hx; subst hx; exact absurd h (by decide)
  · simp only [isJsonWs, Bool.or_eq_false_iff, decide_eq_false_iff_not]
    refine ⟨⟨⟨?_, ?_⟩, ?_⟩, ?_⟩ <;> (intro hx; subst hx; exact absurd h (by decide))

/-- Serializer output begins with a character that closes nothing and is not
whitespace. -/
theorem jsonStringify_head (v : JsValue) :
    ∃ c t, jsonStringify v = c :: t ∧ c ≠ ']' ∧ c ≠ '}' ∧ isJsonWs c = false := by
  cases v with
  | vNull => refine ⟨'n', _, rfl, ?_, ?_, ?_⟩ <;> decide
  | vBool b =>
    cases b with
    | true => refine ⟨'t', _, rfl, ?_, ?_, ?_⟩ <;> decide
    | false => refine ⟨'f', _, rfl, ?_, ?_, ?_⟩ <;> decide
  | vStr s => refine ⟨'"', _, rfl, ?_, ?_, ?_⟩ <;> decide
  | vArr es => refine ⟨'[', _, rfl, ?_, ?_, ?_⟩ <;> decide
  | vObj fs => refine ⟨'{', _, rfl, ?_, ?_, ?_⟩ <;> decide
  | vNum n =>
    match n with
    | Int.ofNat m =>
      obtain ⟨c, t, hct, hd⟩ := natToChars_cons m
      obtain ⟨h1, h2, h3⟩ := digit_ne_delims hd
      exact ⟨c, t, by simp [jsonStringify, intToChars, hct], h1, h2, h3⟩
    | Int.negSucc m =>
      exact ⟨'-', natToChars (m + 1), rfl, by decide, by decide, by decide⟩

theorem goodTail_elemsTail (vs : List JsValue) (rest : Str) :
    goodTail (stringifyElemsTail vs ++ ']' :: rest) := by
  cases vs with
  | nil => exact Or.inr (Or.inl rfl)
  | cons v vs => exact Or.inl rfl

theorem goodTail_membersTail (fs : List (Str × JsValue)) (rest : Str) :
    goodTail (stringifyMembersTail fs ++ '}' :: rest) := by
  cases fs with
  | nil => exact Or.inr (Or.inr rfl)
  | cons kv fs =>
    obtain ⟨k, v⟩ := kv
    rw [stringifyMembersTail_cons]
    exact Or.inl rfl

theorem stringifyElems_cons (x : JsValue) (xs : List JsValue) :
    stringifyElems (x :: xs) = jsonStringify x ++ stringifyElemsTail xs := rfl

theorem stringifyElemsTail_cons (x : JsValue) (xs : List JsValue) :
    stringifyElemsTail (x :: xs) = ',' :: (jsonStringify x ++ stringifyElemsTail xs) := rfl

theorem len_arr_cons (x : JsValue) (xs : List JsValue) :
    (jsonStringify (.vArr (x :: xs))).length
      = 2 + (jsonStringify x).length + (stringifyElemsTail xs).length := by
  show ('[' :: (stringifyElems (x :: xs) ++ [']'])).length = _
  rw [stringifyElems_cons]
  simp [List.length_append]
  omega

theorem len_elemsTail_cons (x : JsValue) (xs : List JsValue) :
    (stringifyElemsTail (x :: xs)).length
      = 1 + (jsonStringify x).length + (stringifyElemsTail xs).length := by
  rw [stringifyElemsTail_cons]
  simp [List.length_append]
  omega

theorem len_member (k : Str) (v : JsValue) :
    (stringifyMember k v).length = 3 + (escapeStr k).length + (jsonStringify v).length := by
  show ('"' :: (escapeStr k ++ '"' :: ':' :: jsonStringify v)).length = _
  simp [List.length_append]
  omega

theorem len_obj_cons (k : Str) (v : JsValue) (fs : List (Str × JsValue)) :
    (jsonStringify (.vObj ((k, v) :: fs))).length
      = 2 + (stringifyMember k v).length + (stringifyMembersTail fs).length := by
  show ('{' :: (stringifyMembers ((k, v) :: fs) ++ ['}'])).length = _
  rw [stringifyMembers_cons]
  simp [List.length_append]
  omega

theorem len_membersTail_cons (k : Str) (v : JsValue) (fs : List (Str × JsValue)) :
    (stringifyMembersTail ((k, v) :: fs)).length
      = 1 + (stringifyMember k v).length + (stringifyMembersTail fs).length := by
  rw [stringifyMembersTail_cons]
  simp [List.length_append]
  omega

theorem parseJsonValue_succ (fuel : Nat) (input : Str) :
    parseJsonValue (fuel + 1) input
      = parseValStep (parseJsonValue fuel) (parseMoreElems fuel) (parseOneMember fuel)
          (parseMoreMembers fuel) input := rfl

theorem parseMoreElems_succ (fuel : Nat) (input : Str) :
    parseMoreElems (fuel + 1) input
      = parseElemsStep (parseJsonValue fuel) (parseMoreElems fuel) input := rfl

theorem parseOneMember_succ (fuel : Nat) (input : Str) :
    parseOneMember (fuel + 1) input = parseMemberStep (parseJsonValue fuel) input := rfl

theorem parseMoreMembers_succ (fuel : Nat) (input : Str) :
    parseMoreMembers (fuel + 1) input
      = parseMembersStep (parseOneMember fuel) (parseMoreMembers fuel) input := rfl

/-- The parser inverts the canonical serializer: one statement for values,
element lists, single members and member lists, proved together by
induction on the fuel. -/
theorem parse_stringify_all : ∀ fuel : Nat,
    (∀ v rest, goodTail rest → (jsonStringify v).length < fuel →
      parseJsonValue fuel (jsonStringify v ++ rest) = some (v, rest))
  ∧ (∀ vs rest, goodTail rest → (stringifyElemsTail vs).length + 1 ≤ fuel →
      parseMoreElems fuel (stringifyElemsTail vs ++ ']' :: rest) = some (vs, rest))
  ∧ (∀ k v rest, goodTail rest → (jsonStringify v).length + 2 ≤ fuel →
      parseOneMember fuel (stringifyMember k v ++ rest) = some ((k, v), rest))
  ∧ (∀ fs rest, goodTail rest → (stringifyMembersTail fs).length + 1 ≤ fuel →
      parseMoreMembers fuel (stringifyMembersTail fs ++ '}' :: rest) = some (fs, rest)) := by
  intro fuel
  induction fuel with
  | zero =>
    refine ⟨?_, ?_, ?_, ?_⟩
    · intro v rest _ hlen; exact absurd hlen (by omega)
    · intro vs rest _ hlen; exact absurd hlen (by omega)
    · intro k v rest _ hlen; exact absurd hlen (by omega)
    · intro fs rest _ hlen; exact absurd hlen (by omega)
  | succ fuel ih =>
    obtain ⟨ihV, ihE, ihM, ihMs⟩ := ih
    refine ⟨?_, ?_, ?_, ?_⟩
    · -- values
      intro v rest hrest hlen
      cases v with
      | vNull => rfl
      | vBool b => cases b <;> rfl
      | vNum n =>
        match n with
        | Int.ofNat m =>
          obtain ⟨c, t, hct, hd⟩ := natToChars_cons m
          obtain ⟨h1, h2, h3, h4, h5, h6, h7⟩ := digit_ne_starts hd
          have hS : jsonStringify (.vNum (Int.ofNat m)) ++ rest = c :: (t ++ rest) := by
            show natToChars m ++ rest = _
            rw [hct, List.cons_append]
          rw [hS, parseJsonValue_succ]
          simp only [parseValStep]
          simp only [if_neg h1, if_neg h2, if_neg h3, if_neg h4, if_neg h5, if_neg h6,
            if_neg h7, if_pos hd]
          rw [show c :: (t ++ rest) = natToChars m ++ rest from by rw [hct, List.cons_append],
            parseDigitRun_natToChars m (goodTail_headNotDigit hrest)]
          rfl
        | Int.negSucc m =>
          have hS : jsonStringify (.vNum (Int.negSucc m)) ++ rest
              = '-' :: (natToChars (m + 1) ++ rest) := rfl
          rw [hS, parseJsonValue_succ]
          simp only [parseValStep]
          simp only [Char.reduceEq, reduceIte]
          rw [parseDigitRun_natToChars (m + 1) (goodTail_headNotDigit hrest)]
          rfl
      | vStr s =>
        have hS : jsonStringify (.vStr s) ++ rest = '"' :: (escapeStr s ++ '"' :: rest) := by
          show '"' :: (escapeStr s ++ ['"']) ++ rest = _
          simp [List.append_assoc]
        rw [hS, parseJsonValue_succ]
        simp only [parseValStep]
        simp only [Char.reduceEq, reduceIte]
        simp only [parseStringBody_escapeStr s rest]
      | vArr es =>
        cases es with
        | nil => rfl
        | cons x xs =>
          obtain ⟨c1, t1, hx, hc1, _, _⟩ := jsonStringify_head x
          have hS : jsonStringify (.vArr (x :: xs)) ++ rest
              = '[' :: (c1 :: (t1 ++ (stringifyElemsTail xs ++ ']' :: rest))) := by
            show '[' :: (stringifyElems (x :: xs) ++ [']']) ++ rest = _
            rw [stringifyElems_cons, hx]
            simp [List.append_assoc]
          have hlen' := len_arr_cons x xs
          rw [hS, parseJsonValue_succ]
          simp only [parseValStep]
          simp only [Char.reduceEq, reduceIte]
          rw [if_neg hc1]
          rw [show c1 :: (t1 ++ (stringifyElemsTail xs ++ ']' :: rest))
              = jsonStringify x ++ (stringifyElemsTail xs ++ ']' :: rest) from by
            rw [hx, List.cons_append]]
          simp only [ihV x _ (goodTail_elemsTail xs rest) (by omega),
            ihE xs rest hrest (by omega)]
      | vObj fs =>
        cases fs with
        | nil => rfl
        | cons kv fs =>
          obtain ⟨k, v⟩ := kv
          have hS : jsonStringify (.vObj ((k, v) :: fs)) ++ rest
              = '{' :: ('"' :: ((escapeStr k ++ '"' :: ':' :: jsonStringify v)
                  ++ (stringifyMembersTail fs ++ '}' :: rest))) := by
            show '{' :: (stringifyMembers ((k, v) :: fs) ++ ['}']) ++ rest = _
            rw [stringifyMembers_cons]
            show '{' :: (('"' :: (escapeStr k ++ '"' :: ':' :: jsonStringify v)
                ++ stringifyMembersTail fs) ++ ['}']) ++ rest = _
            simp [List.append_assoc]
          have hlen' := len_obj_cons k v fs
          have hlenM := len_member k v
          rw [hS, parseJsonValue_succ]
          simp only [parseValStep]
          simp only [Char.reduceEq, reduceIte]
          rw [show ('"' :: ((escapeStr k ++ '"' :: ':' :: jsonStringify v)
              ++ (stringifyMembersTail fs ++ '}' :: rest)))
              = stringifyMember k v ++ (stringifyMembersTail fs ++ '}' :: rest) from by
            show _ = ('"' :: (escapeStr k ++ '"' :: ':' :: jsonStringify v))
              ++ (stringifyMembersTail fs ++ '}' :: rest)
            simp [List.append_assoc]]
          simp only [ihM k v _ (goodTail_membersTail fs rest) (by omega),
            ihMs fs rest hrest (by omega)]
    · -- element lists
      intro vs rest hrest hlen
      cases vs with
      | nil => rfl
      | cons x xs =>
        have hS : stringifyElemsTail (x :: xs) ++ ']' :: rest
            = ',' :: (jsonStringify x ++ (stringifyElemsTail xs ++ ']' :: rest)) := by
          rw [stringifyElemsTail_cons]
          simp [List.append_assoc]
        have hlen' := len_elemsTail_cons x xs
        rw [hS, parseMoreElems_succ]
        simp only [parseElemsStep]
        simp only [Char.reduceEq, reduceIte]
        simp only [ihV x _ (goodTail_elemsTail xs rest) (by omega),
          ihE xs rest hrest (by omega)]
    · -- a single member
      intro k v rest hrest hlen
      have hS : stringifyMember k v ++ rest
          = '"' :: (escapeStr k ++ '"' :: (':' :: (jsonStringify v ++ rest))) := by
        show ('"' :: (escapeStr k ++ '"' :: ':' :: jsonStringify v)) ++ rest = _
        simp [List.append_assoc]
      rw [hS, parseOneMember_succ]
      simp only [parseMemberStep]
      simp only [Char.reduceEq, reduceIte]
      simp only [parseStringBody_escapeStr k (':' :: (jsonStringify v ++ rest)),
        ihV v rest hrest (by omega)]
    · -- member lists
      intro fs rest hrest hlen
      cases fs with
      | nil => rfl
      | cons kv fs =>
        obtain ⟨k, v⟩ := kv
        have hS : stringifyMembersTail ((k, v) :: fs) ++ '}' :: rest
            = ',' :: (stringifyMember k v ++ (stringifyMembersTail fs ++ '}' :: rest)) := by
          rw [stringifyMembersTail_cons]
          simp [List.append_assoc]
        have hlen' := len_membersTail_cons k v fs
        have hlenM := len_member k v
        rw [hS, parseMoreMembers_succ]
        simp only [parseMembersStep]
        simp only [Char.reduceEq, reduceIte]
        simp only [ihM k v _ (goodTail_membersTail fs rest) (by omega),
          ihMs fs rest hrest (by omega)]

/-- Top-level round trip of the modelled JSON built-ins:
`JSON.parse (JSON.stringify v)` recovers `v`. -/
theorem jsonParse_jsonStringify (v : JsValue) : jsonParse (jsonStringify v) = some v := by
  obtain ⟨c, t, hct, _, _, hws⟩ := jsonStringify_head v
  have hdrop : (jsonStringify v).dropWhile isJsonWs = jsonStringify v := by
    rw [hct, List.dropWhile_cons, hws]
    simp
  rw [jsonParse]
  simp only [hdrop]
  have hparse := (parse_stringify_all ((jsonStringify v).length + 1)).1 v []
    trivial (by omega)
  rw [List.append_nil] at hparse
  rw [hparse]
  rfl

theorem hexDigitChar_spec {d : Nat} (h : d < 16) :
    isHexDigitChar (hexDigitChar d) = true ∧ hexDigitChar d ≠ ':'
      ∧ isJsWs (hexDigitChar d) = false := by
  interval_cases d <;> exact ⟨rfl, by decide, rfl⟩

theorem hexDecode_hexEncode (bs : List Byte) : hexDecode (hexEncode bs) = bs := by
  induction bs with
  | nil => rfl
  | cons b bs ih =>
    obtain ⟨n, hn⟩ := b
    have hhi : n / 16 < 16 := by omega
    have hlo : n % 16 < 16 := by omega
    show hexDecode (hexDigitChar (n / 16) :: hexDigitChar (n % 16) :: hexEncode bs) = _
    rw [hexDecode, hexCharVal_hexDigitChar hhi, hexCharVal_hexDigitChar hlo, ih]
    exact congrArg (fun x => x :: bs) (Fin.ext (show 16 * (n / 16) + n % 16 = n by omega))

theorem hexEncode_mem {bs : List Byte} : ∀ ch ∈ hexEncode bs,
    isHexDigitChar ch = true ∧ ch ≠ ':' ∧ isJsWs ch = false := by
  intro ch hch
  rw [hexEncode, List.mem_flatMap] at hch
  obtain ⟨b, _, hmem⟩ := hch
  have hhi : b.val / 16 < 16 := by have := b.isLt; omega
  have hlo : b.val % 16 < 16 := by omega
  simp only [List.mem_cons, List.not_mem_nil, or_false] at hmem
  rcases hmem with h | h
  · exact h ▸ hexDigitChar_spec hhi
  · exact h ▸ hexDigitChar_spec hlo

theorem hexEncode_ne_nil {bs : List Byte} (h : bs ≠ []) : hexEncode bs ≠ [] := by
  match bs, h with
  | b :: bs, _ =>
    show hexDigitChar (b.val / 16) :: hexDigitChar (b.val % 16) :: hexEncode bs ≠ []
    simp

theorem splitOnChar_ne_nil (sep : Char) (s : Str) : splitOnChar sep s ≠ [] := by
  induction s with
  | nil => simp [splitOnChar]
  | cons c rest ih =>
    rw [splitOnChar]
    rcases hsp : splitOnChar sep rest with _ | ⟨grp, groups⟩
    · exact absurd hsp ih
    · by_cases hcs : c = sep
      · simp [hcs]
      · simp [hcs]

theorem splitOnChar_sep (sep : Char) (rest : Str) :
    splitOnChar sep (sep :: rest) = [] :: splitOnChar sep rest := by
  rw [splitOnChar]
  rcases hsp : splitOnChar sep rest with _ | ⟨grp, groups⟩
  · exact absurd hsp (splitOnChar_ne_nil sep rest)
  · simp

theorem splitOnChar_sepFree_append {sep : Char} {x : Str} (hx : ∀ c ∈ x, c ≠ sep)
    {rest : Str} {g : Str} {gs : List Str} (h : splitOnChar sep rest = g :: gs) :
    splitOnChar sep (x ++ rest) = (x ++ g) :: gs := by
  induction x with
  | nil => simpa using h
  | cons c cs ih =>
    have hc : c ≠ sep := hx c (by simp)
    have ih' := ih (fun d hd => hx d (by simp [hd]))
    show splitOnChar sep (c :: (cs ++ rest)) = _
    rw [splitOnChar, ih']
    simp [hc]

theorem splitOnChar_sepFree {sep : Char} {x : Str} (hx : ∀ c ∈ x, c ≠ sep) :
    splitOnChar sep x = [x] := by
  have h0 : splitOnChar sep ([] : Str) = [] :: [] := rfl
  have := splitOnChar_sepFree_append hx h0
  simpa using this

/-- Splitting `a:b:c` with separator-free parts gives exactly the three
parts (empty parts included). -/
theorem splitOnChar_three {sep : Char} {a b c : Str}
    (ha : ∀ ch ∈ a, ch ≠ sep) (hb : ∀ ch ∈ b, ch ≠ sep) (hc : ∀ ch ∈ c, ch ≠ sep) :
    splitOnChar sep (a ++ sep :: (b ++ sep :: c)) = [a, b, c] := by
  have h3 : splitOnChar sep c = [c] := splitOnChar_sepFree hc
  have h2 : splitOnChar sep (b ++ sep :: c) = [b, c] := by
    rw [splitOnChar_sepFree_append hb (by rw [splitOnChar_sep, h3])]
    simp
  rw [splitOnChar_sepFree_append ha (by rw [splitOnChar_sep, h2])]
  simp

theorem splitOnChar_encryptContent (c : GcmCipher) (key iv : List Byte) (x : JsValue) :
    splitOnChar ':' (encryptContent c key iv x)
      = [hexEncode iv, hexEncode (c.enc key iv (encPayload x)).2,
         hexEncode (c.enc key iv (encPayload x)).1] :=
  splitOnChar_three (fun ch h => (hexEncode_mem ch h).2.1)
    (fun ch h => (hexEncode_mem ch h).2.1) (fun ch h => (hexEncode_mem ch h).2.1)

theorem bytesToChars_charLeBytes (pt : Str) : bytesToChars (pt.flatMap charLeBytes) = pt := by
  induction pt with
  | nil => rfl
  | cons ch rest ih =>
    have hlt : ch.toNat < 4294967296 := by
      have := ch.val.toNat_lt
      simpa [Char.toNat] using this
    show bytesToChars (charLeBytes ch ++ rest.flatMap charLeBytes) = _
    rw [charLeBytes]
    show Char.ofNat (ch.toNat % 256 + 256 * (ch.toNat / 256 % 256)
        + 65536 * (ch.toNat / 65536 % 256) + 16777216 * (ch.toNat / 16777216 % 256))
        :: bytesToChars (rest.flatMap charLeBytes) = _
    rw [ih, show ch.toNat % 256 + 256 * (ch.toNat / 256 % 256)
        + 65536 * (ch.toNat / 65536 % 256) + 16777216 * (ch.toNat / 16777216 % 256)
        = ch.toNat from by omega, Char.ofNat_toNat]

theorem testCipher_roundtrip : ∀ (key iv : List Byte) (pt : Str),
    testCipher.dec key iv (testCipher.enc key iv pt).2 (testCipher.enc key iv pt).1 = some pt :=
  fun _ _ pt => congrArg some (bytesToChars_charLeBytes pt)

theorem encPayload_vStr (s : Str) : encPayload (.vStr s) = s := rfl

/-- C1 (amended): under a valid 32-byte key and any cipher satisfying the
GCM decryption round-trip, decrypting the result of encrypting `x` returns
`x` when `x` is not a string (objects round-trip structurally, through
serialize and parse) and when `x` is a string on which `JSON.parse` fails
(typical plain text).  A string that itself parses as JSON instead
decrypts to the parsed value — the correction the counterexample forces. -/
theorem decryptContent_encryptContent (c : GcmCipher) (key iv : List Byte)
    (hkey : key.length = 32)
    (hdec : ∀ pt, c.dec key iv (c.enc key iv pt).2 (c.enc key iv pt).1 = some pt)
    (x : JsValue)
    (hx : (∀ s, x ≠ JsValue.vStr s) ∨ ∃ s, x = JsValue.vStr s ∧ jsonParse s = none) :
    decryptContent c key (encryptContent c key iv x) = Except.ok x := by
  simp only [decryptContent, splitOnChar_encryptContent, hexDecode_hexEncode,
    hdec (encPayload x)]
  rcases hx with hx | ⟨s, rfl, hs⟩
  · have hp : encPayload x = jsonStringify x := by
      cases x with
      | vStr s => exact absurd rfl (hx s)
      | vNull => rfl
      | vBool b => rfl
      | vNum n => rfl
      | vArr es => rfl
      | vObj fs => rfl
    rw [hp, jsonParse_jsonStringify]
  · rw [encPayload_vStr, hs]

theorem hexPart_ok {bs : List Byte} (h : bs ≠ []) :
    (!(hexEncode bs).isEmpty && (hexEncode bs).all isHexDigitChar) = true := by
  rw [Bool.and_eq_true]
  constructor
  · simp [List.isEmpty_iff, hexEncode_ne_nil h]
  · rw [List.all_eq_true]
    intro ch hch
    exact (hexEncode_mem ch hch).1

/-- C9 (amended): every encrypt output whose IV, auth tag and ciphertext
are nonempty splits on `:` into exactly 3 parts of hex digits only, so
`isEncrypted` returns true for it.  AES-GCM always has a nonempty IV and a
16-byte tag, but its ciphertext is empty exactly when the (serialized)
plaintext is empty — and on that one input the third part is empty, fails
`/^[0-9a-f]+$/i`, and the output is not recognized (the counterexample). -/
theorem isEncrypted_encryptContent (c : GcmCipher) (key iv : List Byte) (x : JsValue)
    (hiv : iv ≠ [])
    (htag : (c.enc key iv (encPayload x)).2 ≠ [])
    (hct : (c.enc key iv (encPayload x)).1 ≠ []) :
    isEncrypted (.vStr (encryptContent c key iv x)) = true := by
  simp only [isEncrypted, splitOnChar_encryptContent]
  simp [hexPart_ok hiv, hexPart_ok htag, hexPart_ok hct]

theorem schedRun_pending_fire (es : List UpdateChapterInput) :
    ∀ (i : Nat) (p : UpdateChapterInput) (src : List Nat),
    (schedRun i ⟨some p, src, true⟩ (es.map SchedEvent.schedule ++ [SchedEvent.timerFire])).2.map
        Prod.fst
      = [es.foldl mergeEdit p] := by
  induction es with
  | nil => intro i p src; rfl
  | cons e es ih =>
    intro i p src
    show (schedRun (i + 1) ⟨some (mergeEdit p e), src ++ [i], true⟩
        (es.map SchedEvent.schedule ++ [SchedEvent.timerFire])).2.map Prod.fst = _
    rw [ih (i + 1) (mergeEdit p e) (src ++ [i]), List.foldl_cons]

theorem mergeEdit_title (a b : UpdateChapterInput) :
    (mergeEdit a b).title = b.title.or a.title := by
  cases b with
  | mk t c o st => cases t <;> rfl

theorem mergeEdit_content (a b : UpdateChapterInput) :
    (mergeEdit a b).content = b.content.or a.content := by
  cases b with
  | mk t c o st => cases c <;> rfl

theorem mergeEdit_order (a b : UpdateChapterInput) :
    (mergeEdit a b).order = b.order.or a.order := by
  cases b with
  | mk t c o st => cases o <;> rfl

theorem mergeEdit_status (a b : UpdateChapterInput) :
    (mergeEdit a b).status = b.status.or a.status := by
  cases b with
  | mk t c o st => cases st <;> rfl

/-- Folding the merge picks, for each field, the last scheduled value for
that field (or none at all). -/
theorem foldl_merge_lastPick {α : Type} (f : UpdateChapterInput → Option α)
    (hf : ∀ a b, f (mergeEdit a b) = (f b).or (f a)) :
    ∀ (es : List UpdateChapterInput) (e : UpdateChapterInput),
    f (es.foldl mergeEdit e) = ((e :: es).filterMap f).getLast? := by
  intro es
  induction es with
  | nil =>
    intro e
    match h : f e with
    | some x => simp [List.filterMap, h]
    | none => simp [List.filterMap, h]
  | cons d ds ih =>
    intro e
    rw [List.foldl_cons, ih (mergeEdit e d)]
    match hd : f d with
    | some x =>
      have hm : f (mergeEdit e d) = some x := by rw [hf, hd]; rfl
      rw [show ((mergeEdit e d :: ds).filterMap f) = x :: ds.filterMap f by
          simp [List.filterMap_cons, hm],
        show ((e :: d :: ds).filterMap f)
            = (match f e with | some y => [y] | none => []) ++ x :: ds.filterMap f by
          match he : f e with
          | some y => simp [List.filterMap_cons, he, hd]
          | none => simp [List.filterMap_cons, he, hd]]
      match he2 : f e with
      | some y =>
        simp only [List.getLast?_append]
        rcases hz : (x :: List.filterMap f ds).getLast? with _ | z
        · exact absurd hz (by simp [List.getLast?_eq_none_iff])
        · simp
      | none => simp
    | none =>
      have hm : f (mergeEdit e d) = f e := by rw [hf, hd]; rfl
      match he : f e with
      | some y =>
        have hm' : f (mergeEdit e d) = some y := hm.trans he
        simp [List.filterMap_cons, hm', hd, he]
      | none =>
        have hm' : f (mergeEdit e d) = none := hm.trans he
        simp [List.filterMap_cons, hm', hd, he]

/-- The emitted-index sets of any trace are pairwise disjoint, and every
emitted index is either in the starting buffer or scheduled during the
trace. -/
theorem schedRun_src_disjoint (evs : List SchedEvent) :
    ∀ (i : Nat) (s : SchedState), (∀ j ∈ s.pendingSrc, j < i) →
    List.Pairwise (fun a b => a.2.Disjoint b.2) (schedRun i s evs).2
    ∧ (∀ em ∈ (schedRun i s evs).2, ∀ j ∈ em.2, j ∈ s.pendingSrc ∨ i ≤ j) := by
  induction evs with
  | nil => intro i s h; exact ⟨List.Pairwise.nil, by intro em hem; cases hem⟩
  | cons ev evs ih =>
    intro i s h
    match ev with
    | .schedule e =>
      obtain ⟨d, hstep⟩ : ∃ d, schedStep i s (.schedule e)
          = (⟨some d, s.pendingSrc ++ [i], true⟩, []) := ⟨_, rfl⟩
      have h' : ∀ j ∈ s.pendingSrc ++ [i], j < i + 1 := by
        intro j hj
        rcases List.mem_append.mp hj with hj | hj
        · exact Nat.lt_succ_of_lt (h j hj)
        · rw [List.mem_singleton] at hj; omega
      obtain ⟨ih1, ih2⟩ := ih (i + 1) ⟨some d, s.pendingSrc ++ [i], true⟩ h'
      rw [show (schedRun i s (SchedEvent.schedule e :: evs)).2
          = (schedRun (i + 1) ⟨some d, s.pendingSrc ++ [i], true⟩ evs).2 by
        simp [schedRun, hstep]]
      refine ⟨ih1, ?_⟩
      intro em hem j hj
      rcases ih2 em hem j hj with hmem | hge
      · rcases List.mem_append.mp hmem with hmem | hmem
        · exact Or.inl hmem
        · rw [List.mem_singleton] at hmem; omega
      · omega
    | .timerFire =>
      by_cases harmed : s.timerArmed
      · match hp : s.pendingData with
        | some d =>
          have hstep : schedStep i s .timerFire = (⟨none, [], false⟩, [(d, s.pendingSrc)]) := by
            simp [schedStep, harmed, hp]
          obtain ⟨ih1, ih2⟩ := ih (i + 1) ⟨none, [], false⟩ (by intro j hj; cases hj)
          show List.Pairwise _ (schedRun i s (SchedEvent.timerFire :: evs)).2
            ∧ (∀ em ∈ (schedRun i s (SchedEvent.timerFire :: evs)).2, _)
          rw [show (schedRun i s (SchedEvent.timerFire :: evs)).2
              = (d, s.pendingSrc) :: (schedRun (i + 1) ⟨none, [], false⟩ evs).2 by
            simp [schedRun, hstep]]
          constructor
          · refine List.Pairwise.cons ?_ ih1
            intro em hem j hj hj2
            rcases ih2 em hem j hj2 with hc | hc
            · cases hc
            · exact absurd (h j hj) (by omega)
          · intro em hem j hj
            rcases List.mem_cons.mp hem with rfl | hem
            · exact Or.inl hj
            · rcases ih2 em hem j hj with hc | hc
              · cases hc
              · omega
        | none =>
          have hstep : schedStep i s .timerFire = (⟨none, [], false⟩, []) := by
            simp [schedStep, harmed, hp]
          obtain ⟨ih1, ih2⟩ := ih (i + 1) ⟨none, [], false⟩ (by intro j hj; cases hj)
          rw [show (schedRun i s (SchedEvent.timerFire :: evs)).2
              = (schedRun (i + 1) ⟨none, [], false⟩ evs).2 by simp [schedRun, hstep]]
          refine ⟨ih1, ?_⟩
          intro em hem j hj
          rcases ih2 em hem j hj with hc | hc
          · cases hc
          · omega
      · have hstep : schedStep i s .timerFire = (s, []) := by simp [schedStep, harmed]
        obtain ⟨ih1, ih2⟩ := ih (i + 1) s (by intro j hj; exact Nat.lt_succ_of_lt (h j hj))
        rw [show (schedRun i s (SchedEvent.timerFire :: evs)).2
            = (schedRun (i + 1) s evs).2 by simp [schedRun, hstep]]
        refine ⟨ih1, ?_⟩
        intro em hem j hj
        rcases ih2 em hem j hj with hc | hc
        · exact Or.inl hc
        · omega
    | .flush =>
      match hp : s.pendingData with
      | some d =>
        have hstep : schedStep i s .flush = (⟨none, [], false⟩, [(d, s.pendingSrc)]) := by
          simp [schedStep, hp]
        obtain ⟨ih1, ih2⟩ := ih (i + 1) ⟨none, [], false⟩ (by intro j hj; cases hj)
        rw [show (schedRun i s (SchedEvent.flush :: evs)).2
            = (d, s.pendingSrc) :: (schedRun (i + 1) ⟨none, [], false⟩ evs).2 by
          simp [schedRun, hstep]]
        constructor
        · refine List.Pairwise.cons ?_ ih1
          intro em hem j hj hj2
          rcases ih2 em hem j hj2 with hc | hc
          · cases hc
          · exact absurd (h j hj) (by omega)
        · intro em hem j hj
          rcases List.mem_cons.mp hem with rfl | hem
          · exact Or.inl hj
          · rcases ih2 em hem j hj with hc | hc
            · cases hc
            · omega
      | none =>
        have hstep : schedStep i s .flush = ({ s with timerArmed := false }, []) := by
          simp [schedStep, hp]
        obtain ⟨ih1, ih2⟩ := ih (i + 1) { s with timerArmed := false }
          (by intro j hj; exact Nat.lt_succ_of_lt (h j hj))
        rw [show (schedRun i s (SchedEvent.flush :: evs)).2
            = (schedRun (i + 1) { s with timerArmed := false } evs).2 by simp [schedRun, hstep]]
        refine ⟨ih1, ?_⟩
        intro em hem j hj
        rcases ih2 em hem j hj with hc | hc
        · exact Or.inl hc
        · omega

/-! ## Settling the claims -/

/-- C1 (counterexample to the claim as stated): the string `"42"` does not
round-trip as the same string — decryption returns the JSON-parsed number
42, because `decryptContent` tries `JSON.parse` on every decrypted payload
and only falls back to the raw string when parsing fails. -/
theorem decryptContent_json_string_counterexample :
    decryptContent testCipher testKey (encryptContent testCipher testKey testIv
      (.vStr "42".toList)) = Except.ok (.vNum 42)
    ∧ decryptContent testCipher testKey (encryptContent testCipher testKey testIv
      (.vStr "42".toList)) ≠ Except.ok (.vStr "42".toList)
    ∧ testKey.length = 32 := by
  refine ⟨rfl, ?_, rfl⟩
  intro h
  rw [show decryptContent testCipher testKey (encryptContent testCipher testKey testIv
      (.vStr "42".toList)) = Except.ok (.vNum 42) from rfl] at h
  exact absurd h (by simp)

/-- Witness for C1's amended round-trip theorem at a concrete object and a
concrete GCM-faithful cipher. -/
theorem decryptContent_encryptContent_witness :
    testKey.length = 32
    ∧ decryptContent testCipher testKey (encryptContent testCipher testKey testIv
        (.vObj [("a".toList, .vStr "hi".toList)]))
      = Except.ok (.vObj [("a".toList, .vStr "hi".toList)]) :=
  ⟨by decide, decryptContent_encryptContent testCipher testKey testIv (by decide)
    (testCipher_roundtrip testKey testIv) _ (Or.inl (fun s => by simp))⟩

/-- C2: a PATCH whose body carries the plaintext `"hello world"` (2 words)
stores a chapter whose `wordCount` is 1: the route computes the plaintext
count, but `save()` runs the pre-save hook after `chapter.content` was
replaced by the encrypted `iv:authTag:ciphertext` string, and the hook
recomputes the count from that stored string — a single whitespace-free
token. -/
theorem patchChapter_wordCount_from_ciphertext :
    (patchChapter testCipher testKey testIv { content := some (.vStr "hello world".toList) }
      emptyChapter).map (fun ch => ch.wordCount) = Except.ok 1
    ∧ countWords (.vStr "hello world".toList) "tiptap".toList = 2 := ⟨rfl, rfl⟩

/-- C3: reconciling chapter `a`'s save response while chapter `b` is
active updates `a`'s cache and list entries by id, but also overwrites
`activeChapter` with `a`'s response unconditionally, so the editor now
shows `a` while `activeChapterId` still says `b`. -/
theorem autoSaveSuccess_overwrites_active_chapter :
    inFlightState.activeChapterId = some "b".toList
    ∧ chAUpdated.id = "a".toList
    ∧ (autoSaveSuccess chAUpdated inFlightState).activeChapter = some chAUpdated
    ∧ (autoSaveSuccess chAUpdated inFlightState).activeChapterId = some "b".toList
    ∧ mapGet (autoSaveSuccess chAUpdated inFlightState).cache "b".toList = some chB
    ∧ (autoSaveSuccess chAUpdated inFlightState).chapters.find?
        (fun c => c.id = "b".toList) = some sumB :=
  ⟨rfl, rfl, rfl, rfl, rfl, rfl⟩

/-- C4: scheduling a nonempty run of edits with no timer firing in
between, followed by the timer, emits exactly one save whose payload is
the shallow field-level merge of all scheduled edits; per field the last
scheduled value wins (content is replaced wholesale, never deep-merged). -/
theorem scheduleSave_debounce_merge (e : UpdateChapterInput)
    (es : List UpdateChapterInput) :
    ((schedRun 0 initSchedState ((e :: es).map SchedEvent.schedule
        ++ [SchedEvent.timerFire])).2.map Prod.fst = [es.foldl mergeEdit e])
    ∧ (es.foldl mergeEdit e).title = ((e :: es).filterMap UpdateChapterInput.title).getLast?
    ∧ (es.foldl mergeEdit e).content
      = ((e :: es).filterMap UpdateChapterInput.content).getLast?
    ∧ (es.foldl mergeEdit e).order = ((e :: es).filterMap UpdateChapterInput.order).getLast?
    ∧ (es.foldl mergeEdit e).status
      = ((e :: es).filterMap UpdateChapterInput.status).getLast? := by
  refine ⟨?_, foldl_merge_lastPick _ mergeEdit_title es e,
    foldl_merge_lastPick _ mergeEdit_content es e,
    foldl_merge_lastPick _ mergeEdit_order es e,
    foldl_merge_lastPick _ mergeEdit_status es e⟩
  rw [List.map_cons, List.cons_append]
  show (schedRun 1 ⟨some e, [0], true⟩
      (es.map SchedEvent.schedule ++ [SchedEvent.timerFire])).2.map Prod.fst = _
  exact schedRun_pending_fire es 1 e [0]

/-- C5 (counterexample to the claim as stated): with existing sibling
orders {0, 2} (order 1 was deleted), the POST route assigns
`countDocuments = 2` — colliding with the existing order-2 chapter — not
`1 + max = 3` as the claim states. -/
theorem createChapter_order_counterexample :
    (createChapter [chapterOrder0, chapterOrder2] none).map (fun ch => ch.order)
      = Except.ok 2
    ∧ claimedNewOrder [chapterOrder0, chapterOrder2] = 3
    ∧ chapterOrder2.order = 2
    ∧ (2 : Nat) ≠ 3 := ⟨rfl, rfl, rfl, by decide⟩

/-- C5 (amended): chapter creation assigns `order` equal to the **count**
of the novel's existing chapters (`countDocuments`), not 1 + the maximum
order, so gaps left by deletions can make the new order collide with an
existing one; the new chapter otherwise gets the schema defaults and a
word count of 0 via the pre-save hook. -/
theorem createChapter_assigns_count_order (existing : List DbChapter) :
    createChapter existing none = Except.ok
      { title := "New Chapter".toList, content := .vStr [], contentType := "tiptap".toList,
        order := existing.length, status := .draft, wordCount := 0 } := rfl

/-- C6 (counterexample to the claim as stated): deleting the active middle
chapter `b` of the ascending list `a, b, c` makes `a` — `remaining[0]` —
the new active chapter, not the next adjacent sibling `c`. -/
theorem removeChapter_not_adjacent_counterexample :
    (removeChapter "b".toList threeChapterState).1.activeChapterId = some "a".toList
    ∧ specNextAdjacentId threeChapterState.chapters "b".toList = some "c".toList
    ∧ (some "a".toList : Option Str) ≠ some "c".toList := ⟨rfl, rfl, by decide⟩

/-- C6 (amended): when the active chapter is deleted and siblings remain,
the **first** remaining sibling in the current ascending-order list
becomes the new active chapter (the next adjacent sibling only when the
first chapter was deleted), and it is loaded cache-first: returned from
the cache with no fetch when present, fetched otherwise. -/
theorem removeChapter_first_remaining (s : EditorState) (chapterId : Str)
    (ch : ChapterSummary) (rest : List ChapterSummary)
    (hactive : s.activeChapterId = some chapterId)
    (hrem : s.chapters.filter (fun c => c.id ≠ chapterId) = ch :: rest) :
    (removeChapter chapterId s).1.activeChapterId = some ch.id
    ∧ (∀ full, mapGet (mapDelete s.cache chapterId) ch.id = some full →
        (removeChapter chapterId s).1.activeChapter = some full
        ∧ (removeChapter chapterId s).2 = false)
    ∧ (mapGet (mapDelete s.cache chapterId) ch.id = none →
        (removeChapter chapterId s).2 = true) := by
  simp only [ne_eq, decide_not] at hrem
  have key : removeChapter chapterId s
      = loadChapter ch.id
        { s with
          cache := mapDelete s.cache chapterId,
          chapters := ch :: rest,
          activeChapterId := some ch.id,
          activeChapter := none } := by
    simp [removeChapter, hrem, hactive, List.head?]
  rw [key]
  refine ⟨?_, ?_, ?_⟩
  · rcases hget : mapGet (mapDelete s.cache chapterId) ch.id with _ | full <;>
      simp [loadChapter, hget]
  · intro full hget
    simp [loadChapter, hget]
  · intro hget
    simp [loadChapter, hget]

/-- Witness for C6's amended theorem: deleting active chapter `a` of
`a, b` with `b` cached makes `b` active from the cache, with no fetch. -/
theorem removeChapter_first_remaining_witness :
    (removeChapter "a".toList twoChapterState).1.activeChapterId = some "b".toList
    ∧ (removeChapter "a".toList twoChapterState).1.activeChapter = some chB
    ∧ (removeChapter "a".toList twoChapterState).2 = false := by
  have h := removeChapter_first_remaining twoChapterState "a".toList sumB []
    (by rfl) (by rfl)
  exact ⟨h.1, (h.2.1 chB (by rfl)).1, (h.2.1 chB (by rfl)).2⟩

/-- C7: a failed status toggle on draft chapter `a` reverts the list entry
and the active chapter to the captured pre-toggle status, but the cache
entry keeps the optimistically flipped status (`published`) — the
catch-block revert never touches the cache. -/
theorem toggleStatusFailed_cache_not_reverted :
    chA.status = ChapterStatus.draft
    ∧ (toggleStatusFailed "a".toList draftChapterState).chapters = [sumA]
    ∧ (toggleStatusFailed "a".toList draftChapterState).activeChapter = some chA
    ∧ mapGet (toggleStatusFailed "a".toList draftChapterState).cache "a".toList
      = some { chA with status := ChapterStatus.published } :=
  ⟨rfl, rfl, rfl, rfl⟩

/-- C8: on the spec's example tree (a doc with two paragraphs holding the
leaf texts `Hello` and `world`), text extraction returns `Hello world` —
containing both words — and the tree-content word count is 2. -/
theorem extractText_countWords_example_tree :
    extractTextFromTiptap specDocTree = "Hello world".toList
    ∧ countWords specDocTree "tiptap".toList = 2 := ⟨rfl, rfl⟩

/-- C10: across every interleaving of schedule, timer and flush events,
the index sets of scheduled edits carried by the emitted saves are
pairwise disjoint, so no buffered edit is ever handed to the sink twice;
a flush finding an empty buffer emits nothing and only clears the timer;
and both the timer callback and flush null the buffer and disarm the
timer when they emit. -/
theorem schedSink_at_most_once :
    (∀ evs : List SchedEvent,
      List.Pairwise (fun a b => a.2.Disjoint b.2) (schedRun 0 initSchedState evs).2)
    ∧ (∀ (i : Nat) (src : List Nat) (t : Bool),
        schedStep i ⟨none, src, t⟩ SchedEvent.flush = (⟨none, src, false⟩, []))
    ∧ (∀ (i : Nat) (p : UpdateChapterInput) (src : List Nat),
        schedStep i ⟨some p, src, true⟩ SchedEvent.timerFire = (⟨none, [], false⟩, [(p, src)]))
    ∧ (∀ (i : Nat) (p : UpdateChapterInput) (src : List Nat),
        schedStep i ⟨some p, src, true⟩ SchedEvent.flush = (⟨none, [], false⟩, [(p, src)])) := by
  refine ⟨?_, fun i src t => rfl, fun i p src => rfl, fun i p src => rfl⟩
  intro evs
  exact (schedRun_src_disjoint evs 0 initSchedState (fun j hj => absurd hj
    (List.not_mem_nil j))).1

/-- Witness for C9's amended theorem at a concrete nonempty plaintext. -/
theorem isEncrypted_encryptContent_witness :
    isEncrypted (.vStr (encryptContent testCipher testKey testIv (.vStr "hi".toList)))
      = true :=
  isEncrypted_encryptContent testCipher testKey testIv (.vStr "hi".toList)
    (by decide) (by decide) (by decide)

/-- C9 (counterexample to the claim as stated): encrypting the empty
string — a value every chapter starts with — yields `iv:tag:` with an
empty ciphertext part (GCM-faithfully, the concrete cipher maps the empty
plaintext to an empty ciphertext); the split still has 3 parts, but the
empty third part fails `/^[0-9a-f]+$/i`, so `isEncrypted` rejects the
encrypt output. -/
theorem isEncrypted_empty_plaintext_counterexample :
    isEncrypted (.vStr (encryptContent testCipher testKey testIv (.vStr []))) = false
    ∧ (splitOnChar ':' (encryptContent testCipher testKey testIv (.vStr []))).length = 3
    ∧ (testCipher.enc testKey testIv (encPayload (.vStr []))).1 = []
    ∧ testKey.length = 32 := ⟨rfl, rfl, rfl, rfl⟩

end Writely

